import Mathlib

/-
Verification of the @inco: directive parser and helpers.

Go strings are byte strings; we model them as `List Char`, which coincides
with the byte-level behaviour on ASCII input (all directive syntax and every
input considered here is ASCII).  Functions keep the names of the Go source
(`internal/inco/directive.inco.go` and the core types file).
-/

namespace Inco

/-- Action kinds, from the Go `ActionKind` constants. -/
inductive ActionKind where
  | ActionPanic
  | ActionReturn
  | ActionContinue
  | ActionBreak
deriving DecidableEq

/-- Parsed form of a single @inco: comment, from the Go `Directive` struct. -/
structure Directive where
  Action : ActionKind
  ActionArgs : List (List Char)
  Expr : List Char
deriving DecidableEq

/-- ASCII white-space recognised by the model of Go's `strings.TrimSpace`
(space, tab, newline, vertical tab, form feed, carriage return); this is the
ASCII fragment of `unicode.IsSpace` and coincides with Go on ASCII input. -/
def isGoSpace (c : Char) : Bool :=
  c == ' ' || c == '\t' || c == '\n' || c == '\x0b' || c == '\x0c' || c == '\r'

/-- Model of Go's `strings.TrimSpace`: drop white-space from both ends. -/
def trimSpace (l : List Char) : List Char :=
  ((l.dropWhile isGoSpace).reverse.dropWhile isGoSpace).reverse

/-- Scanner state of the character loops in `findLastTopLevelComma` and
`splitTopLevel`: bracket nesting depth, whether we are inside a double-quoted
string, whether the next character is skipped (the Go code does `i++` after a
backslash inside a string), the previously consumed character (the Go code
inspects `s[i-1]`), and the current index. -/
structure ScanSt where
  depth : Int
  inStr : Bool
  skipNext : Bool
  prev : Option Char
  idx : Nat
deriving DecidableEq

/-- Initial scanner state. -/
def initSt : ScanSt := ⟨0, false, false, none, 0⟩

/-- One step of the shared scanner `switch` of `findLastTopLevelComma` and
`splitTopLevel` (the two Go loops have the identical case list).  The Go
`i++`-skip after a backslash inside a string is rendered as the `skipNext`
flag; `prev` plays the role of `s[i-1]`, with `none` for `i == 0`. -/
def scanStep (st : ScanSt) (c : Char) : ScanSt :=
  if st.skipNext then
    { st with skipNext := false, prev := some c, idx := st.idx + 1 }
  else if c == '"' && !st.inStr then
    { st with inStr := true, prev := some c, idx := st.idx + 1 }
  else if c == '"' && st.inStr && !(st.prev == some '\\') then
    { st with inStr := false, prev := some c, idx := st.idx + 1 }
  else if st.inStr then
    { st with skipNext := c == '\\', prev := some c, idx := st.idx + 1 }
  else if c == '(' || c == '[' || c == '{' then
    { st with depth := st.depth + 1, prev := some c, idx := st.idx + 1 }
  else if c == ')' || c == ']' || c == '}' then
    { st with depth := st.depth - 1, prev := some c, idx := st.idx + 1 }
  else
    { st with prev := some c, idx := st.idx + 1 }

/-- Whether the scanner, in state `st` and looking at character `c`, takes the
`ch == ',' && depth == 0` case of the Go `switch` (every earlier case must
fail: not skipped, not inside a string). -/
def isTopComma (st : ScanSt) (c : Char) : Bool :=
  !st.skipNext && !st.inStr && c == ',' && st.depth == 0

/-- Loop of `findLastTopLevelComma`: remember the index of the last comma
taken at depth 0 outside a string. -/
def scanLastAux : List Char → ScanSt → Int → Int
  | [], _, last => last
  | c :: cs, st, last =>
      scanLastAux cs (scanStep st c) (if isTopComma st c then Int.ofNat st.idx else last)

/-- Go `findLastTopLevelComma`: index of the last comma at depth 0 outside a
string literal, `-1` if there is none. -/
def findLastTopLevelComma (s : List Char) : Int :=
  scanLastAux s initSt (-1)

/-- Positions of all top-level commas (commas taken by the scanner at depth 0
outside any string literal), in left-to-right order.  This is the
specification-side notion the split is described with. -/
def tlcAux : List Char → ScanSt → List Nat
  | [], _ => []
  | c :: cs, st => (if isTopComma st c then [st.idx] else []) ++ tlcAux cs (scanStep st c)

/-- Top-level comma positions of a payload. -/
def topLevelCommas (s : List Char) : List Nat :=
  tlcAux s initSt

/-- Position-indexed reading: position `k` of the remaining input holds a
comma that the scanner, started in state `st`, encounters at depth 0 and
outside any string literal. -/
def isTopLevelCommaAt : List Char → ScanSt → Nat → Bool
  | [], _, _ => false
  | c :: _, st, 0 => isTopComma st c
  | c :: cs, st, k + 1 => isTopLevelCommaAt cs (scanStep st c) k

/-- Loop of `splitTopLevel`: split `orig` at top-level commas; each finished
segment is trimmed and appended, the final segment only if non-empty. -/
def splitAux (orig : List Char) : List Char → ScanSt → Nat → List (List Char) → List (List Char)
  | [], _, start, acc =>
      let last := trimSpace (orig.drop start)
      if last = [] then acc else acc ++ [last]
  | c :: cs, st, start, acc =>
      if isTopComma st c then
        splitAux orig cs (scanStep st c) (st.idx + 1)
          (acc ++ [trimSpace ((orig.drop start).take (st.idx - start))])
      else
        splitAux orig cs (scanStep st c) start acc

/-- Go `splitTopLevel`: split by top-level commas, respecting nested parens,
brackets, braces and double-quoted strings. -/
def splitTopLevel (s : List Char) : List (List Char) :=
  splitAux s s initSt 0 []

/-- Loop of Go `parseActionArgs`: find the index of the parenthesis that
closes the argument list, tracking only parens and double-quoted strings.
The Go code skips string literals with a nested index loop (advance past
the opening quote, then step over backslash escapes until the closing
quote); that nested loop is rendered here character by character with the
`inStr`/`skipNext` state, consuming exactly the same characters with
exactly the same effect.  `some i` is the index of the closing parenthesis
at depth 0 (`depth` counts open parens); `none` models falling off the end
(unmatched parenthesis). -/
def findCloseParen : List Char → Nat → Int → Bool → Bool → Option Nat
  | [], _, _, _, _ => none
  | c :: rest, i, depth, inStr, skipNext =>
    if skipNext then findCloseParen rest (i + 1) depth inStr false
    else if inStr then
      if c == '"' then findCloseParen rest (i + 1) depth false false
      else if c == '\\' then findCloseParen rest (i + 1) depth true true
      else findCloseParen rest (i + 1) depth true false
    else if c == '(' then findCloseParen rest (i + 1) (depth + 1) inStr false
    else if c == ')' then
      (if depth = 1 then some i else findCloseParen rest (i + 1) (depth - 1) inStr false)
    else if c == '"' then findCloseParen rest (i + 1) depth true false
    else findCloseParen rest (i + 1) depth inStr false

/-- Go `parseActionArgs`: parse `(arg1, arg2, ...)`; on success return the
split arguments and the remaining text after `)`; `none` models `ok == false`
(missing `(` or unmatched parenthesis). -/
def parseActionArgs (l : List Char) : Option (List (List Char) × List Char) :=
  match l with
  | '(' :: _ =>
    match findCloseParen l 0 0 false false with
    | some i => some (splitTopLevel ((l.drop 1).take (i - 1)), l.drop (i + 1))
    | none => none
  | _ => none

/-- Go `stripComment`: remove comment delimiters and return trimmed content
(`""` when the input is not a comment). -/
def stripComment (s : List Char) : List Char :=
  let t := trimSpace s
  if (['/', '/']).isPrefixOf t then trimSpace (t.drop 2)
  else if (['/', '*']).isPrefixOf t && (['*', '/']).isSuffixOf t then
    trimSpace ((t.drop 2).take (t.length - 4))
  else []

/-- Go `actionKeywords`: the `-`-prefixed action names.  The Go code ranges
over a map, whose iteration order is unspecified; the order is immaterial
because no keyword is a prefix of another, so at most one entry can match a
given clause. -/
def actionKeywords : List (List Char × ActionKind) :=
  [("-panic".data, .ActionPanic), ("-return".data, .ActionReturn),
   ("-continue".data, .ActionContinue), ("-break".data, .ActionBreak)]

/-- Keyword loop of Go `parseRequireRest`.  Result `none` means the loop ran
out without a `return` (fall back to expression-only); `some none` models
`return nil` (action matched but the expression is empty); `some (some d)`
models returning the directive `d`. -/
def tryKeywords (d0 : Directive) (rest : List Char) (ci : Nat) (afterComma : List Char) :
    List (List Char × ActionKind) → Option (Option Directive)
  | [] => none
  | (kw, act) :: ks =>
    if kw.isPrefixOf afterComma then
      let after := afterComma.drop kw.length
      if after = [] then
        let expr := trimSpace (rest.take ci)
        some (if expr = [] then none else some { d0 with Action := act, Expr := expr })
      else if after.head? = some '(' then
        match parseActionArgs after with
        | some (args, remaining) =>
          if trimSpace remaining = [] then
            let expr := trimSpace (rest.take ci)
            some (if expr = [] then none
                  else some { d0 with Action := act, ActionArgs := args, Expr := expr })
          else tryKeywords d0 rest ci afterComma ks
        | none => tryKeywords d0 rest ci afterComma ks
      else tryKeywords d0 rest ci afterComma ks
    else tryKeywords d0 rest ci afterComma ks

/-- Attempt to read a `, -action[(args)]` clause from the payload: the
`commaIdx >= 0` and `strings.HasPrefix(afterComma, "-")` gates of Go
`parseRequireRest`, followed by the keyword loop.  `none` means no valid
action clause was found (the caller falls back to expression-only). -/
def tryActionClause (d0 : Directive) (rest : List Char) : Option (Option Directive) :=
  match findLastTopLevelComma rest with
  | Int.ofNat ci =>
    let afterComma := trimSpace (rest.drop (ci + 1))
    if afterComma.head? = some '-' then tryKeywords d0 rest ci afterComma actionKeywords
    else none
  | Int.negSucc _ => none

/-- Go `parseRequireRest`: split on the last top-level comma and try the
action keywords; otherwise the entire rest is the expression. -/
def parseRequireRest (d0 : Directive) (rest : List Char) : Option Directive :=
  match tryActionClause d0 rest with
  | some r => r
  | none => some { d0 with Expr := rest }

/-- Go `ParseDirective`: extract a `Directive` from a comment, `none` when
the comment is not a valid @inco: directive. -/
def ParseDirective (comment : List Char) : Option Directive :=
  let s := stripComment comment
  if s = [] then none
  else if ("@inco:".data).isPrefixOf s then
    let rest := trimSpace (s.drop ("@inco:".length))
    if rest = [] then none
    else parseRequireRest { Action := .ActionPanic, ActionArgs := [], Expr := [] } rest
  else none

/-- Payload of a directive comment: the trimmed text after `@inco:`, exactly
as `ParseDirective` computes it before handing over to `parseRequireRest`. -/
def incoPayload (comment : List Char) : List Char :=
  trimSpace ((stripComment comment).drop ("@inco:".length))

/-! Specification-side reading of the splitter: the segments of a payload
between its top-level commas. -/

/-- Segments of `l` delimited by the (sorted) comma positions `ps`, starting
at offset `start`: the raw text between consecutive top-level commas. -/
def segmentsAt (l : List Char) : List Nat → Nat → List (List Char)
  | [], start => [l.drop start]
  | p :: ps, start => ((l.drop start).take (p - start)) :: segmentsAt l ps (p + 1)

/-- Drop the final segment when it is empty (the Go splitter appends every
comma-terminated segment but the final one only when non-empty). -/
def withLastFiltered : List (List Char) → List (List Char)
  | [] => []
  | [t] => if t = [] then [] else [t]
  | t :: t2 :: ts => t :: withLastFiltered (t2 :: ts)

/-- Specification-side splitter: the texts between top-level commas, each
trimmed, the final one dropped when empty. -/
def splitTopLevelSpec (l : List Char) : List (List Char) :=
  withLastFiltered ((segmentsAt l (topLevelCommas l) 0).map trimSpace)

/-! Guard synthesis. -/

/-- Modelled from the spec: the test of a synthesised guard, from the Guard
Synthesiser of engine.inco.go, which is not among these sources (only its
tests are).  Per the spec the negation is purely textual: the directive's raw
expression is wrapped unmodified in `!( ... )`, with no simplification. -/
def synthGuardTest (d : Directive) : List Char :=
  ("!(".data) ++ d.Expr ++ (")".data)

/-- Modelled from the spec: a synthesised guard, an if-statement whose test
is the textual negation of the directive expression and whose body realises
the directive's action. -/
def synthGuard (d : Directive) (body : List Char) : List Char :=
  ("if ".data) ++ synthGuardTest d ++ (" \x7b\n\t".data) ++ body ++ ("\n\x7d".data)

/-! The `Recover` helper of the core types file. -/

/-- Model of a Go `error` value, identified by its message text. -/
structure GoError where
  message : List Char
deriving DecidableEq

/-- Value recovered from a panic as `Recover` sees it: either an `error`, or
any other value, carried here by its `%v` rendering. -/
inductive PanicValue where
  | isError (e : GoError)
  | nonError (rendered : List Char)
deriving DecidableEq

/-- Model of `fmt.Errorf("%v", r)`: an error whose message is the `%v`
rendering of `r` (the rendering itself is opaque to `Recover` and is carried
by the `nonError` constructor). -/
def errorfV (rendered : List Char) : GoError := ⟨rendered⟩

/-- Go `Recover`, as a function from the recovered value (`none` when no
panic occurred) and the prior `*errp` to the new `*errp`. -/
def Recover (r : Option PanicValue) (errp : Option GoError) : Option GoError :=
  match r with
  | none => errp
  | some (.isError e) => some e
  | some (.nonError v) => some (errorfV v)

/-! Helper lemmas. -/

theorem scanStep_idx (st : ScanSt) (c : Char) : (scanStep st c).idx = st.idx + 1 := by
  unfold scanStep
  split_ifs <;> rfl

theorem getLast?_cons' {α : Type} (a : α) (l : List α) :
    (a :: l).getLast? = some (l.getLast?.getD a) := by
  induction l generalizing a with
  | nil => rfl
  | cons b t ih => simp [List.getLast?_cons_cons, ih]

/-- The `lastComma` accumulator of the Go loop ends up holding the last of
the top-level comma positions (or its initial value when there is none). -/
theorem scanLastAux_eq (l : List Char) :
    ∀ (st : ScanSt) (last : Int),
      scanLastAux l st last = ((tlcAux l st).getLast?.map Int.ofNat).getD last := by
  induction l with
  | nil => intro st last; rfl
  | cons c cs ih =>
    intro st last
    rw [scanLastAux, tlcAux, ih]
    by_cases h : isTopComma st c
    · simp only [h, if_true, List.singleton_append]
      rw [getLast?_cons']
      cases htl : (tlcAux cs (scanStep st c)).getLast? <;> simp [htl]
    · simp [h]

/-- Membership in the collected top-level comma positions, read back as the
position-indexed predicate. -/
theorem mem_tlcAux (l : List Char) :
    ∀ (st : ScanSt) (j : Nat),
      j ∈ tlcAux l st ↔ ∃ k, isTopLevelCommaAt l st k = true ∧ j = st.idx + k := by
  induction l with
  | nil => intro st j; simp [tlcAux, isTopLevelCommaAt]
  | cons c cs ih =>
    intro st j
    rw [tlcAux]
    constructor
    · intro h
      rcases List.mem_append.1 h with h1 | h2
      · by_cases hb : isTopComma st c
        · simp only [hb, if_true, List.mem_singleton] at h1
          exact ⟨0, by simp [isTopLevelCommaAt, hb], by omega⟩
        · simp [hb] at h1
      · obtain ⟨k, hk, hj⟩ := (ih (scanStep st c) j).1 h2
        refine ⟨k + 1, by simpa [isTopLevelCommaAt] using hk, ?_⟩
        rw [scanStep_idx] at hj
        omega
    · rintro ⟨k, hk, hj⟩
      cases k with
      | zero =>
        simp only [isTopLevelCommaAt] at hk
        subst hj
        simp [hk]
      | succ k =>
        simp only [isTopLevelCommaAt] at hk
        refine List.mem_append.2 (Or.inr ((ih (scanStep st c) j).2 ⟨k, hk, ?_⟩))
        rw [scanStep_idx]
        omega

theorem segmentsAt_ne_nil (l : List Char) (ps : List Nat) (start : Nat) :
    segmentsAt l ps start ≠ [] := by
  cases ps <;> simp [segmentsAt]

theorem withLastFiltered_cons (t : List Char) (ts : List (List Char)) (h : ts ≠ []) :
    withLastFiltered (t :: ts) = t :: withLastFiltered ts := by
  cases ts with
  | nil => exact absurd rfl h
  | cons t2 ts' => rfl

/-- The Go splitter loop produces exactly the trimmed texts between the
top-level commas, the final one only when non-empty. -/
theorem splitAux_eq (orig : List Char) :
    ∀ (cs : List Char) (st : ScanSt) (start : Nat) (acc : List (List Char)),
      splitAux orig cs st start acc
        = acc ++ withLastFiltered ((segmentsAt orig (tlcAux cs st) start).map trimSpace) := by
  intro cs
  induction cs with
  | nil =>
    intro st start acc
    rw [splitAux, tlcAux]
    simp only [segmentsAt, List.map_cons, List.map_nil, withLastFiltered]
    by_cases h : trimSpace (orig.drop start) = [] <;> simp [h]
  | cons c cs' ih =>
    intro st start acc
    rw [splitAux, tlcAux]
    by_cases h : isTopComma st c
    · simp only [h, if_true, List.singleton_append]
      rw [ih, segmentsAt]
      rw [List.map_cons,
        withLastFiltered_cons _ _ (by
          simp only [ne_eq, List.map_eq_nil_iff]
          exact segmentsAt_ne_nil orig _ _)]
      simp
    · simp only [h, if_false, List.nil_append]
      exact ih (scanStep st c) start acc

/-- `splitTopLevel` is the specification-side splitter. -/
theorem splitTopLevel_eq_spec (l : List Char) : splitTopLevel l = splitTopLevelSpec l := by
  have h := splitAux_eq l l initSt 0 []
  simpa [splitTopLevel, splitTopLevelSpec, topLevelCommas] using h

theorem isPrefixOf_append_self (l t : List Char) : l.isPrefixOf (l ++ t) = true := by
  induction l with
  | nil => simp [List.isPrefixOf]
  | cons c cs ih => simp [List.isPrefixOf, ih]

/-- An entry whose keyword does not match is skipped by the keyword loop. -/
theorem tryKeywords_skip (d0 : Directive) (rest : List Char) (ci : Nat) (after kw : List Char)
    (act : ActionKind) (ks : List (List Char × ActionKind))
    (h : kw.isPrefixOf after = false) :
    tryKeywords d0 rest ci after ((kw, act) :: ks) = tryKeywords d0 rest ci after ks := by
  rw [tryKeywords]
  simp [h]

/-- An entry whose keyword matches but whose clause is malformed (text after
the keyword that is neither empty nor a well-formed argument list followed by
nothing but white space) is also skipped: the loop keeps looking. -/
theorem tryKeywords_reject (d0 : Directive) (rest : List Char) (ci : Nat) (after kw : List Char)
    (act : ActionKind) (ks : List (List Char × ActionKind))
    (hp : kw.isPrefixOf after = true)
    (hne : after.drop kw.length ≠ [])
    (hfall : (after.drop kw.length).head? = some '(' →
      (parseActionArgs (after.drop kw.length) = none ∨
        ∃ args rem, parseActionArgs (after.drop kw.length) = some (args, rem) ∧
          trimSpace rem ≠ [])) :
    tryKeywords d0 rest ci after ((kw, act) :: ks) = tryKeywords d0 rest ci after ks := by
  rw [tryKeywords]
  simp only [hp, if_true]
  rw [if_neg hne]
  by_cases hh : (after.drop kw.length).head? = some '('
  · rw [if_pos hh]
    rcases hfall hh with hnone | ⟨args, rem, hsome, hrem⟩
    · rw [hnone]
    · rw [hsome]
      exact if_neg hrem
  · rw [if_neg hh]

/-- If no keyword matches, the loop runs out and returns `none`. -/
theorem tryKeywords_none (d0 : Directive) (rest : List Char) (ci : Nat) (after : List Char) :
    ∀ ks : List (List Char × ActionKind),
      (∀ p ∈ ks, p.1.isPrefixOf after = false) →
      tryKeywords d0 rest ci after ks = none := by
  intro ks
  induction ks with
  | nil => intro _; rfl
  | cons p ks ih =>
    intro h
    obtain ⟨kw, act⟩ := p
    rw [tryKeywords_skip _ _ _ _ _ _ _ (h (kw, act) (List.mem_cons_self _ _))]
    exact ih fun q hq => h q (List.mem_cons_of_mem _ hq)

/-- Whenever the keyword loop returns a directive, its expression is the
trimmed text before the split comma, and that text is non-empty. -/
theorem tryKeywords_success (d0 : Directive) (rest : List Char) (ci : Nat) (after : List Char) :
    ∀ (ks : List (List Char × ActionKind)) (d : Directive),
      tryKeywords d0 rest ci after ks = some (some d) →
      d.Expr = trimSpace (rest.take ci) ∧ trimSpace (rest.take ci) ≠ [] := by
  intro ks
  induction ks with
  | nil => intro d h; simp [tryKeywords] at h
  | cons p ks ih =>
    intro d h
    obtain ⟨kw, act⟩ := p
    rw [tryKeywords] at h
    by_cases hp : kw.isPrefixOf after
    · simp only [hp, if_true] at h
      by_cases he : after.drop kw.length = []
      · simp only [he, if_true] at h
        by_cases hx : trimSpace (rest.take ci) = []
        · simp [hx] at h
        · simp only [hx, if_false, Option.some.injEq] at h
          exact ⟨by rw [← h], hx⟩
      · simp only [he, if_false] at h
        by_cases hh : (after.drop kw.length).head? = some '('
        · simp only [hh, if_true] at h
          cases hpa : parseActionArgs (after.drop kw.length) with
          | none => rw [hpa] at h; exact ih d h
          | some pr =>
            obtain ⟨args, rem⟩ := pr
            rw [hpa] at h
            by_cases hr : trimSpace rem = []
            · simp only [hr, if_true] at h
              by_cases hx : trimSpace (rest.take ci) = []
              · simp [hx] at h
              · simp only [hx, if_false, Option.some.injEq] at h
                exact ⟨by rw [← h], hx⟩
            · simp only [hr, if_false] at h
              exact ih d h
        · simp only [hh, if_false] at h
          exact ih d h
    · simp only [hp, if_false] at h
      exact ih d h

/-- A successfully parsed action clause splits at the last top-level comma
and takes the trimmed text before it as the expression. -/
theorem tryActionClause_success (d0 : Directive) (rest : List Char) (d : Directive)
    (h : tryActionClause d0 rest = some (some d)) :
    ∃ ci : Nat, findLastTopLevelComma rest = Int.ofNat ci ∧
      d.Expr = trimSpace (rest.take ci) ∧ trimSpace (rest.take ci) ≠ [] := by
  unfold tryActionClause at h
  cases hf : findLastTopLevelComma rest with
  | ofNat ci =>
    rw [hf] at h
    simp only at h
    by_cases hd : (trimSpace (rest.drop (ci + 1))).head? = some '-'
    · rw [if_pos hd] at h
      exact ⟨ci, rfl, tryKeywords_success d0 rest ci _ actionKeywords d h⟩
    · rw [if_neg hd] at h
      cases h
  | negSucc n =>
    rw [hf] at h
    cases h

/-- With no usable action clause the whole payload becomes the expression. -/
theorem parseRequireRest_noKeyword (d0 : Directive) (rest : List Char) (ci : Nat)
    (hfind : findLastTopLevelComma rest = Int.ofNat ci)
    (hall : (actionKeywords.all
      fun p => !(p.1.isPrefixOf (trimSpace (rest.drop (ci + 1))))) = true) :
    parseRequireRest d0 rest = some { d0 with Expr := rest } := by
  have hclause : tryActionClause d0 rest = none := by
    unfold tryActionClause
    rw [hfind]
    simp only
    by_cases hd : (trimSpace (rest.drop (ci + 1))).head? = some '-'
    · rw [if_pos hd]
      refine tryKeywords_none d0 rest ci _ actionKeywords fun p hp => ?_
      have := List.all_eq_true.1 hall p hp
      simpa using this
    · rw [if_neg hd]
  unfold parseRequireRest
  rw [hclause]

/-- A bare action clause (the trimmed text after the split comma is exactly a
keyword) yields that action with the directive's argument list untouched, or
`none` when the expression before the comma is empty. -/
theorem parseRequireRest_bare (d0 : Directive) (rest : List Char) (ci : Nat) (kw : List Char)
    (act : ActionKind)
    (hmem : (kw, act) ∈ actionKeywords)
    (hfind : findLastTopLevelComma rest = Int.ofNat ci)
    (hafter : trimSpace (rest.drop (ci + 1)) = kw) :
    parseRequireRest d0 rest =
      (if trimSpace (rest.take ci) = [] then none
       else some { d0 with Action := act, Expr := trimSpace (rest.take ci) }) := by
  have hclause : tryActionClause d0 rest
      = some (if trimSpace (rest.take ci) = [] then none
              else some { d0 with Action := act, Expr := trimSpace (rest.take ci) }) := by
    unfold tryActionClause
    rw [hfind]
    simp only
    rw [hafter]
    simp only [actionKeywords, List.mem_cons, List.mem_singleton, Prod.mk.injEq,
      List.not_mem_nil, or_false] at hmem
    rcases hmem with ⟨hk, ha⟩ | ⟨hk, ha⟩ | ⟨hk, ha⟩ | ⟨hk, ha⟩ <;> subst hk <;> subst ha <;> rfl
  unfold parseRequireRest
  rw [hclause]

/-- A successful `parseActionArgs` requires a leading parenthesis. -/
theorem parseActionArgs_head (t : List Char) (x : List (List Char) × List Char)
    (h : parseActionArgs t = some x) : t.head? = some '(' := by
  cases t with
  | nil => exact absurd h (by simp [parseActionArgs])
  | cons c cs =>
    by_cases hc : c = '('
    · subst hc; rfl
    · exfalso
      have hn : parseActionArgs (c :: cs) = none := by
        unfold parseActionArgs
        split
        · next l tail heq =>
            injection heq with h1 _
            exact absurd h1 hc
        · rfl
      rw [hn] at h
      cases h

/-- An entry whose keyword matches a well-formed parenthesised clause (the
argument list parses and only white space remains) succeeds: the action, the
parsed arguments and the trimmed expression are taken, or `nil` is returned
when that expression is empty. -/
theorem tryKeywords_args_entry (d0 : Directive) (rest : List Char) (ci : Nat)
    (after kw : List Char) (act : ActionKind) (ks : List (List Char × ActionKind))
    (args : List (List Char)) (rem : List Char)
    (hp : kw.isPrefixOf after = true)
    (hne : after.drop kw.length ≠ [])
    (hh : (after.drop kw.length).head? = some '(')
    (hpa : parseActionArgs (after.drop kw.length) = some (args, rem))
    (hrem : trimSpace rem = []) :
    tryKeywords d0 rest ci after ((kw, act) :: ks)
      = some (if trimSpace (rest.take ci) = [] then none
              else some { d0 with
                Action := act, ActionArgs := args, Expr := trimSpace (rest.take ci) }) := by
  rw [tryKeywords]
  simp only [hp, if_true]
  rw [if_neg hne, if_pos hh, hpa]
  exact if_pos hrem

/-- A parenthesised action clause (keyword followed by a balanced argument
list and nothing but white space) yields that action with the parsed
arguments, or `none` when the expression before the comma is empty. -/
theorem parseRequireRest_args (d0 : Directive) (rest : List Char) (ci : Nat) (kw : List Char)
    (act : ActionKind) (t : List Char) (args : List (List Char)) (rem : List Char)
    (hmem : (kw, act) ∈ actionKeywords)
    (hfind : findLastTopLevelComma rest = Int.ofNat ci)
    (hafter : trimSpace (rest.drop (ci + 1)) = kw ++ t)
    (hpa : parseActionArgs t = some (args, rem))
    (hrem : trimSpace rem = []) :
    parseRequireRest d0 rest =
      (if trimSpace (rest.take ci) = [] then none
       else some { d0 with
         Action := act, ActionArgs := args, Expr := trimSpace (rest.take ci) }) := by
  have hh : t.head? = some '(' := parseActionArgs_head t _ hpa
  have ht : t ≠ [] := by
    intro h
    subst h
    cases hh
  have hclause : tryActionClause d0 rest
      = some (if trimSpace (rest.take ci) = [] then none
              else some { d0 with
                Action := act, ActionArgs := args, Expr := trimSpace (rest.take ci) }) := by
    unfold tryActionClause
    rw [hfind]
    simp only
    rw [hafter]
    simp only [actionKeywords, List.mem_cons, List.mem_singleton, Prod.mk.injEq,
      List.not_mem_nil, or_false] at hmem
    rcases hmem with ⟨hk, ha⟩ | ⟨hk, ha⟩ | ⟨hk, ha⟩ | ⟨hk, ha⟩ <;> subst hk <;> subst ha <;>
      rw [if_pos (by rfl)] <;> simp only [actionKeywords]
    · exact tryKeywords_args_entry d0 rest ci ("-panic".data ++ t) ("-panic".data)
        .ActionPanic
        [("-return".data, .ActionReturn), ("-continue".data, .ActionContinue),
         ("-break".data, .ActionBreak)] args rem
        (isPrefixOf_append_self _ t) (by rw [List.drop_left]; exact ht)
        (by rw [List.drop_left]; exact hh) (by rw [List.drop_left]; exact hpa) hrem
    · rw [tryKeywords_skip d0 rest ci ("-return".data ++ t) ("-panic".data) .ActionPanic
        [("-return".data, .ActionReturn), ("-continue".data, .ActionContinue),
         ("-break".data, .ActionBreak)] (by rfl)]
      exact tryKeywords_args_entry d0 rest ci ("-return".data ++ t) ("-return".data)
        .ActionReturn
        [("-continue".data, .ActionContinue), ("-break".data, .ActionBreak)] args rem
        (isPrefixOf_append_self _ t) (by rw [List.drop_left]; exact ht)
        (by rw [List.drop_left]; exact hh) (by rw [List.drop_left]; exact hpa) hrem
    · rw [tryKeywords_skip d0 rest ci ("-continue".data ++ t) ("-panic".data) .ActionPanic
        [("-return".data, .ActionReturn), ("-continue".data, .ActionContinue),
         ("-break".data, .ActionBreak)] (by rfl)]
      rw [tryKeywords_skip d0 rest ci ("-continue".data ++ t) ("-return".data) .ActionReturn
        [("-continue".data, .ActionContinue), ("-break".data, .ActionBreak)] (by rfl)]
      exact tryKeywords_args_entry d0 rest ci ("-continue".data ++ t) ("-continue".data)
        .ActionContinue [("-break".data, .ActionBreak)] args rem
        (isPrefixOf_append_self _ t) (by rw [List.drop_left]; exact ht)
        (by rw [List.drop_left]; exact hh) (by rw [List.drop_left]; exact hpa) hrem
    · rw [tryKeywords_skip d0 rest ci ("-break".data ++ t) ("-panic".data) .ActionPanic
        [("-return".data, .ActionReturn), ("-continue".data, .ActionContinue),
         ("-break".data, .ActionBreak)] (by rfl)]
      rw [tryKeywords_skip d0 rest ci ("-break".data ++ t) ("-return".data) .ActionReturn
        [("-continue".data, .ActionContinue), ("-break".data, .ActionBreak)] (by rfl)]
      rw [tryKeywords_skip d0 rest ci ("-break".data ++ t) ("-continue".data) .ActionContinue
        [("-break".data, .ActionBreak)] (by rfl)]
      exact tryKeywords_args_entry d0 rest ci ("-break".data ++ t) ("-break".data)
        .ActionBreak [] args rem
        (isPrefixOf_append_self _ t) (by rw [List.drop_left]; exact ht)
        (by rw [List.drop_left]; exact hh) (by rw [List.drop_left]; exact hpa) hrem
  unfold parseRequireRest
  rw [hclause]

/-- Every entry of the keyword list falls through (its keyword does not
match, or the clause after it is malformed), so the loop returns `none`. -/
theorem tryKeywords_fallthrough (d0 : Directive) (rest : List Char) (ci : Nat)
    (after : List Char) :
    ∀ ks : List (List Char × ActionKind),
      (∀ p ∈ ks, p.1.isPrefixOf after = false ∨
        (p.1.isPrefixOf after = true ∧ after.drop p.1.length ≠ [] ∧
          ((after.drop p.1.length).head? = some '(' →
            parseActionArgs (after.drop p.1.length) = none ∨
            ∃ args rem, parseActionArgs (after.drop p.1.length) = some (args, rem) ∧
              trimSpace rem ≠ []))) →
      tryKeywords d0 rest ci after ks = none := by
  intro ks
  induction ks with
  | nil => intro _; rfl
  | cons p ks ih =>
    intro h
    obtain ⟨kw, act⟩ := p
    have htail : ∀ q ∈ ks, _ := fun q hq => h q (List.mem_cons_of_mem _ hq)
    rcases h (kw, act) (List.mem_cons_self _ _) with hf | ⟨hp, hne, hfall⟩
    · rw [tryKeywords_skip _ _ _ _ _ _ _ hf]
      exact ih htail
    · rw [tryKeywords_reject _ _ _ _ _ _ _ hp hne hfall]
      exact ih htail

/-- A clause whose keyword matches but whose remainder is malformed (neither
empty nor a balanced argument list followed only by white space) is rejected,
and the whole payload becomes the expression. -/
theorem parseRequireRest_reject (d0 : Directive) (rest : List Char) (ci : Nat) (kw : List Char)
    (act : ActionKind) (t : List Char)
    (hmem : (kw, act) ∈ actionKeywords)
    (hfind : findLastTopLevelComma rest = Int.ofNat ci)
    (hafter : trimSpace (rest.drop (ci + 1)) = kw ++ t)
    (ht : t ≠ [])
    (hbad : parseActionArgs t = none ∨
      ∃ args rem, parseActionArgs t = some (args, rem) ∧ trimSpace rem ≠ []) :
    parseRequireRest d0 rest = some { d0 with Expr := rest } := by
  have hclause : tryActionClause d0 rest = none := by
    unfold tryActionClause
    rw [hfind]
    simp only
    rw [hafter]
    simp only [actionKeywords, List.mem_cons, List.mem_singleton, Prod.mk.injEq,
      List.not_mem_nil, or_false] at hmem
    have hmatch : ∀ p ∈ actionKeywords, p.1.isPrefixOf (kw ++ t) = false ∨
        (p.1.isPrefixOf (kw ++ t) = true ∧ (kw ++ t).drop p.1.length ≠ [] ∧
          (((kw ++ t).drop p.1.length).head? = some '(' →
            parseActionArgs ((kw ++ t).drop p.1.length) = none ∨
            ∃ args rem, parseActionArgs ((kw ++ t).drop p.1.length) = some (args, rem) ∧
              trimSpace rem ≠ [])) := by
      intro p hp
      simp only [actionKeywords, List.mem_cons, List.mem_singleton,
        List.not_mem_nil, or_false] at hp
      rcases hmem with ⟨hk, ha⟩ | ⟨hk, ha⟩ | ⟨hk, ha⟩ | ⟨hk, ha⟩ <;> subst hk <;>
        rcases hp with hp | hp | hp | hp <;> subst hp <;>
          first
          | exact Or.inl rfl
          | exact Or.inr ⟨isPrefixOf_append_self _ t,
              by rw [List.drop_left]; exact ht,
              fun _ => by rw [List.drop_left]; exact hbad⟩
    rcases hmem with ⟨hk, ha⟩ | ⟨hk, ha⟩ | ⟨hk, ha⟩ | ⟨hk, ha⟩ <;> subst hk <;>
      (rw [if_pos (by rfl)]; exact tryKeywords_fallthrough d0 rest ci _ actionKeywords hmatch)
  unfold parseRequireRest
  rw [hclause]

/-- Unpack a successful `ParseDirective`: the payload was non-empty and the
result is that of `parseRequireRest` on the payload, started from the default
(panic, no arguments) directive. -/
theorem ParseDirective_some (c : List Char) (d : Directive)
    (h : ParseDirective c = some d) :
    incoPayload c ≠ [] ∧
      parseRequireRest { Action := .ActionPanic, ActionArgs := [], Expr := [] }
        (incoPayload c) = some d := by
  unfold ParseDirective at h
  by_cases h1 : stripComment c = []
  · simp [h1] at h
  · rw [if_neg h1] at h
    by_cases h2 : ("@inco:".data).isPrefixOf (stripComment c)
    · rw [if_pos h2] at h
      by_cases h3 : trimSpace ((stripComment c).drop ("@inco:".length)) = []
      · rw [if_pos h3] at h
        cases h
      · rw [if_neg h3] at h
        exact ⟨h3, h⟩
    · rw [if_neg h2] at h
      cases h

/-! Claim theorems. -/

/-- C1: for every directive with expression E, each synthesised guard is an
if-statement whose test literally contains the substring `!(E)`, with E the
raw expression text wrapped unmodified; the negation is purely textual. -/
theorem C1_guard_contains_textual_negation (d : Directive) (body : List Char) :
    (("!(".data) ++ d.Expr ++ (")".data)) <:+: synthGuard d body := by
  refine ⟨"if ".data, (" \x7b\n\t".data) ++ body ++ ("\n\x7d".data), ?_⟩
  simp [synthGuard, synthGuardTest, List.append_assoc]

/-- C2: the split between expression and action is made at the last
top-level comma — a comma at paren/bracket/brace depth 0 outside a string
literal; the concrete payload `len(a, b) > 0, -return(0, fmt.Errorf("x"))`
parses with expression `len(a, b) > 0` and action Return, the commas inside
the calls being invisible to the splitter. -/
theorem C2_split_at_last_top_level_comma :
    (ParseDirective ("// @inco: len(a, b) > 0, -return(0, fmt.Errorf(\"x\"))".data)
      = some ⟨.ActionReturn, ["0".data, "fmt.Errorf(\"x\")".data], "len(a, b) > 0".data⟩)
    ∧ (∀ s : List Char,
        findLastTopLevelComma s = ((topLevelCommas s).getLast?.map Int.ofNat).getD (-1))
    ∧ (∀ (s : List Char) (j : Nat),
        j ∈ topLevelCommas s ↔ isTopLevelCommaAt s initSt j = true)
    ∧ (∀ (d0 : Directive) (rest : List Char) (d : Directive),
        tryActionClause d0 rest = some (some d) →
        ∃ ci : Nat, findLastTopLevelComma rest = Int.ofNat ci ∧
          d.Expr = trimSpace (rest.take ci)) := by
  refine ⟨by decide, ?_, ?_, ?_⟩
  · intro s
    exact scanLastAux_eq s initSt (-1)
  · intro s j
    have h := mem_tlcAux s initSt j
    simpa [topLevelCommas, initSt] using h
  · intro d0 rest d h
    obtain ⟨ci, h1, h2, _⟩ := tryActionClause_success d0 rest d h
    exact ⟨ci, h1, h2⟩

/-- C2 witness: a concrete action clause splits at the last top-level comma. -/
theorem C2_split_witness :
    ∃ ci : Nat, findLastTopLevelComma ("x, -break".data) = Int.ofNat ci ∧
      (Directive.mk .ActionBreak [] ("x".data)).Expr
        = trimSpace (("x, -break".data).take ci) :=
  C2_split_at_last_top_level_comma.2.2.2 ⟨.ActionPanic, [], []⟩ ("x, -break".data)
    ⟨.ActionBreak, [], "x".data⟩ (by decide)

/-- C3: an empty or whitespace-only payload after `@inco:` is not a
directive; an empty expression before a recognised action clause (bare or
with a parenthesised argument list) is not a directive; every parsed
directive has a non-empty expression. -/
theorem C3_expression_mandatory :
    (∀ c : List Char, ("@inco:".data).isPrefixOf (stripComment c) = true →
      trimSpace ((stripComment c).drop ("@inco:".length)) = [] → ParseDirective c = none)
    ∧ (∀ (rest : List Char) (ci : Nat) (kw : List Char) (act : ActionKind) (d0 : Directive),
        (kw, act) ∈ actionKeywords →
        findLastTopLevelComma rest = Int.ofNat ci →
        trimSpace (rest.drop (ci + 1)) = kw →
        trimSpace (rest.take ci) = [] →
        parseRequireRest d0 rest = none)
    ∧ (∀ (rest : List Char) (ci : Nat) (kw : List Char) (act : ActionKind) (t : List Char)
        (args : List (List Char)) (rem : List Char) (d0 : Directive),
        (kw, act) ∈ actionKeywords →
        findLastTopLevelComma rest = Int.ofNat ci →
        trimSpace (rest.drop (ci + 1)) = kw ++ t →
        parseActionArgs t = some (args, rem) →
        trimSpace rem = [] →
        trimSpace (rest.take ci) = [] →
        parseRequireRest d0 rest = none)
    ∧ (∀ (c : List Char) (d : Directive), ParseDirective c = some d → d.Expr ≠ []) := by
  refine ⟨?_, ?_, ?_, ?_⟩
  · intro c hpre hempty
    unfold ParseDirective
    by_cases h1 : stripComment c = []
    · simp [h1]
    · rw [if_neg h1, if_pos hpre, if_pos hempty]
  · intro rest ci kw act d0 hmem hfind hafter hempty
    rw [parseRequireRest_bare d0 rest ci kw act hmem hfind hafter, if_pos hempty]
  · intro rest ci kw act t args rem d0 hmem hfind hafter hpa hrem hempty
    rw [parseRequireRest_args d0 rest ci kw act t args rem hmem hfind hafter hpa hrem,
      if_pos hempty]
  · intro c d h
    obtain ⟨hne, hp⟩ := ParseDirective_some c d h
    unfold parseRequireRest at hp
    cases hc : tryActionClause { Action := .ActionPanic, ActionArgs := [], Expr := [] }
        (incoPayload c) with
    | none =>
      rw [hc] at hp
      simp only [Option.some.injEq] at hp
      rw [← hp]
      exact hne
    | some r =>
      rw [hc] at hp
      simp only at hp
      subst hp
      obtain ⟨ci, _, h2, h3⟩ := tryActionClause_success _ _ d hc
      rw [h2]
      exact h3

/-- C3 witness: a whitespace-only payload is rejected; an empty expression
before a bare action and before a parenthesised action are both rejected; a
parsed directive has a non-empty expression. -/
theorem C3_expression_mandatory_witness :
    ParseDirective ("// @inco:   ".data) = none
    ∧ parseRequireRest ⟨.ActionPanic, [], []⟩ (", -break".data) = none
    ∧ parseRequireRest ⟨.ActionPanic, [], []⟩ (", -panic(1)".data) = none
    ∧ ("x > 0".data : List Char) ≠ [] :=
  ⟨C3_expression_mandatory.1 ("// @inco:   ".data) (by decide) (by decide),
   C3_expression_mandatory.2.1 (", -break".data) 0 ("-break".data) .ActionBreak
     ⟨.ActionPanic, [], []⟩ (by decide) (by decide) (by decide) (by decide),
   C3_expression_mandatory.2.2.1 (", -panic(1)".data) 0 ("-panic".data) .ActionPanic
     ("(1)".data) ["1".data] [] ⟨.ActionPanic, [], []⟩
     (by decide) (by decide) (by decide) (by decide) (by decide) (by decide),
   C3_expression_mandatory.2.2.2 ("// @inco: x > 0".data)
     ⟨.ActionPanic, [], "x > 0".data⟩ (by decide)⟩

/-- C4: a directive comment that carries no valid action clause parses with
the default Panic action and an empty action-argument list. -/
theorem C4_default_action_panic (c : List Char) (d : Directive)
    (h : ParseDirective c = some d)
    (hno : tryActionClause { Action := .ActionPanic, ActionArgs := [], Expr := [] }
      (incoPayload c) = none) :
    d.Action = .ActionPanic ∧ d.ActionArgs = [] := by
  obtain ⟨hne, hp⟩ := ParseDirective_some c d h
  unfold parseRequireRest at hp
  rw [hno] at hp
  simp only [Option.some.injEq] at hp
  rw [← hp]
  exact ⟨rfl, rfl⟩

/-- C4 witness: an expression-only directive gets Panic with no arguments. -/
theorem C4_default_action_panic_witness :
    (Directive.mk .ActionPanic [] ("x > 0".data)).Action = .ActionPanic
    ∧ (Directive.mk .ActionPanic [] ("x > 0".data)).ActionArgs = [] :=
  C4_default_action_panic ("// @inco: x > 0".data) ⟨.ActionPanic, [], "x > 0".data⟩
    (by decide) (by decide)

/-- C5: for `-action(args)` the argument list is the parenthesised text
split at top-level commas, each argument trimmed only at the edges; bare
actions yield an empty list; the concrete clause
`-return(0, fmt.Errorf("empty"))` yields `0` and `fmt.Errorf("empty")`. -/
theorem C5_action_args_split :
    (ParseDirective ("// @inco: len(s) > 0, -return(0, fmt.Errorf(\"empty\"))".data)
      = some ⟨.ActionReturn, ["0".data, "fmt.Errorf(\"empty\")".data], "len(s) > 0".data⟩)
    ∧ (∀ l : List Char, splitTopLevel l = splitTopLevelSpec l)
    ∧ (∀ (c : List Char) (d : Directive) (ci : Nat) (kw : List Char) (act : ActionKind),
        (kw, act) ∈ actionKeywords →
        findLastTopLevelComma (incoPayload c) = Int.ofNat ci →
        trimSpace ((incoPayload c).drop (ci + 1)) = kw →
        ParseDirective c = some d → d.ActionArgs = []) := by
  refine ⟨by decide, splitTopLevel_eq_spec, ?_⟩
  intro c d ci kw act hmem hfind hafter h
  obtain ⟨hne, hp⟩ := ParseDirective_some c d h
  rw [parseRequireRest_bare _ _ ci kw act hmem hfind hafter] at hp
  by_cases hx : trimSpace ((incoPayload c).take ci) = []
  · rw [if_pos hx] at hp
    cases hp
  · rw [if_neg hx] at hp
    simp only [Option.some.injEq] at hp
    rw [← hp]

/-- C5 witness: a bare `-return` clause yields an empty argument list. -/
theorem C5_action_args_split_witness :
    (Directive.mk .ActionReturn [] ("x > 0".data)).ActionArgs = [] :=
  C5_action_args_split.2.2 ("// @inco: x > 0, -return".data)
    ⟨.ActionReturn, [], "x > 0".data⟩ 5 ("-return".data) .ActionReturn
    (by decide) (by decide) (by decide) (by decide)

/-- C6: evaluation of the shipped splitter on raw-string inputs.  The
repository's own TestSplitTopLevel expects commas inside backtick-delimited
raw strings to be invisible and expects `"a\\"` to close at its final quote,
but the shipped scanner tracks neither backticks nor the skipped character
before its quote look-back, so it splits inside the raw string and misses
the comma after `"a\\"`. -/
theorem C6_raw_string_code_eval :
    splitTopLevel ("`a,b`, c".data) = ["`a".data, "b`".data, "c".data]
    ∧ splitTopLevel ("\"a\\\\\", c".data) = ["\"a\\\\\", c".data]
    ∧ ParseDirective ("// @inco: ok, -panic(`a,b`)".data)
      = some ⟨.ActionPanic, ["`a".data, "b`".data], "ok".data⟩ := by
  refine ⟨by decide, by decide, by decide⟩

/-- C7 counterexample: the parser accepts a parenthesised argument list for
`-continue`, producing a Continue directive with non-empty ActionArgs. -/
theorem C7_continue_args_counterexample :
    ParseDirective ("// @inco: x > 0, -continue(1)".data)
      = some ⟨.ActionContinue, ["1".data], "x > 0".data⟩
    ∧ (["1".data] : List (List Char)) ≠ [] := by
  exact ⟨by decide, by decide⟩

/-- C7 (amended): Panic and Return arguments may be empty or non-empty; a
bare action clause (for any of the four keywords, including `-continue` and
`-break`) leaves the argument list untouched (empty for a parsed comment),
but the parenthesised form is accepted for every keyword, so Continue and
Break directives with non-empty ActionArgs are also produced. -/
theorem C7_bare_clause_empty_args :
    (∀ (d0 : Directive) (rest : List Char) (ci : Nat) (kw : List Char) (act : ActionKind)
        (d : Directive),
      (kw, act) ∈ actionKeywords →
      findLastTopLevelComma rest = Int.ofNat ci →
      trimSpace (rest.drop (ci + 1)) = kw →
      parseRequireRest d0 rest = some d →
      d.ActionArgs = d0.ActionArgs)
    ∧ ParseDirective ("// @inco: x > 0, -break(1)".data)
      = some ⟨.ActionBreak, ["1".data], "x > 0".data⟩ := by
  refine ⟨?_, by decide⟩
  intro d0 rest ci kw act d hmem hfind hafter hp
  rw [parseRequireRest_bare d0 rest ci kw act hmem hfind hafter] at hp
  by_cases hx : trimSpace (rest.take ci) = []
  · rw [if_pos hx] at hp
    cases hp
  · rw [if_neg hx] at hp
    simp only [Option.some.injEq] at hp
    rw [← hp]

/-- C7 witness: a bare `-break` clause keeps the default empty arguments. -/
theorem C7_bare_clause_empty_args_witness :
    (Directive.mk .ActionBreak [] ("x > 0".data)).ActionArgs
      = (Directive.mk .ActionPanic [] []).ActionArgs :=
  C7_bare_clause_empty_args.1 ⟨.ActionPanic, [], []⟩ ("x > 0, -break".data) 5
    ("-break".data) .ActionBreak ⟨.ActionBreak, [], "x > 0".data⟩
    (by decide) (by decide) (by decide) (by decide)

/-- C8: when the text after the last top-level comma is not a valid action
clause — it matches no known keyword, or the keyword is followed by a
malformed (e.g. unmatched) argument list — the whole payload including the
comma becomes the expression, with the default Panic action. -/
theorem C8_invalid_clause_falls_back :
    (∀ (d0 : Directive) (rest : List Char) (ci : Nat),
      findLastTopLevelComma rest = Int.ofNat ci →
      (actionKeywords.all
        fun p => !(p.1.isPrefixOf (trimSpace (rest.drop (ci + 1))))) = true →
      parseRequireRest d0 rest = some { d0 with Expr := rest })
    ∧ (∀ (d0 : Directive) (rest : List Char) (ci : Nat) (kw : List Char) (act : ActionKind)
        (t : List Char),
      (kw, act) ∈ actionKeywords →
      findLastTopLevelComma rest = Int.ofNat ci →
      trimSpace (rest.drop (ci + 1)) = kw ++ t →
      t ≠ [] →
      parseActionArgs t = none →
      parseRequireRest d0 rest = some { d0 with Expr := rest })
    ∧ (ParseDirective ("// @inco: x != nil, -do(log.Println(\"x is nil\"))".data)
      = some ⟨.ActionPanic, [], "x != nil, -do(log.Println(\"x is nil\"))".data⟩)
    ∧ (ParseDirective ("// @inco: x > 0, -panic(oops".data)
      = some ⟨.ActionPanic, [], "x > 0, -panic(oops".data⟩) := by
  refine ⟨?_, ?_, by decide, by decide⟩
  · intro d0 rest ci hfind hall
    exact parseRequireRest_noKeyword d0 rest ci hfind hall
  · intro d0 rest ci kw act t hmem hfind hafter ht hnone
    exact parseRequireRest_reject d0 rest ci kw act t hmem hfind hafter ht (Or.inl hnone)

/-- C8 witness: an unknown keyword and an unmatched parenthesis both fall
back to treating the whole payload as the expression. -/
theorem C8_invalid_clause_falls_back_witness :
    parseRequireRest ⟨.ActionPanic, [], []⟩ ("x, -foo".data)
      = some { (⟨.ActionPanic, [], []⟩ : Directive) with Expr := "x, -foo".data }
    ∧ parseRequireRest ⟨.ActionPanic, [], []⟩ ("x > 0, -panic(oops".data)
      = some { (⟨.ActionPanic, [], []⟩ : Directive) with Expr := "x > 0, -panic(oops".data } :=
  ⟨C8_invalid_clause_falls_back.1 ⟨.ActionPanic, [], []⟩ ("x, -foo".data) 1
     (by decide) (by decide),
   C8_invalid_clause_falls_back.2.1 ⟨.ActionPanic, [], []⟩ ("x > 0, -panic(oops".data) 5
     ("-panic".data) .ActionPanic ("(oops".data)
     (by decide) (by decide) (by decide) (by decide) (by decide)⟩

/-- C9: a known keyword with a balanced argument list followed by trailing
non-whitespace text is rejected, and the entire payload becomes the
expression with the default Panic action — trailing text is never silently
dropped. -/
theorem C9_trailing_text_rejected :
    (∀ (d0 : Directive) (rest : List Char) (ci : Nat) (kw : List Char) (act : ActionKind)
        (t : List Char) (args : List (List Char)) (rem : List Char),
      (kw, act) ∈ actionKeywords →
      findLastTopLevelComma rest = Int.ofNat ci →
      trimSpace (rest.drop (ci + 1)) = kw ++ t →
      parseActionArgs t = some (args, rem) →
      trimSpace rem ≠ [] →
      parseRequireRest d0 rest = some { d0 with Expr := rest })
    ∧ (ParseDirective ("// @inco: x > 0, -panic(1) junk".data)
      = some ⟨.ActionPanic, [], "x > 0, -panic(1) junk".data⟩) := by
  refine ⟨?_, by decide⟩
  intro d0 rest ci kw act t args rem hmem hfind hafter hpa hrem
  have ht : t ≠ [] := by
    intro h
    subst h
    simp [parseActionArgs] at hpa
  exact parseRequireRest_reject d0 rest ci kw act t hmem hfind hafter ht
    (Or.inr ⟨args, rem, hpa, hrem⟩)

/-- C9 witness: `-panic(1) junk` is rejected and the whole payload becomes
the expression. -/
theorem C9_trailing_text_rejected_witness :
    parseRequireRest ⟨.ActionPanic, [], []⟩ ("x > 0, -panic(1) junk".data)
      = some { (⟨.ActionPanic, [], []⟩ : Directive) with
          Expr := "x > 0, -panic(1) junk".data } :=
  C9_trailing_text_rejected.1 ⟨.ActionPanic, [], []⟩ ("x > 0, -panic(1) junk".data) 5
    ("-panic".data) .ActionPanic ("(1) junk".data) ["1".data] (" junk".data)
    (by decide) (by decide) (by decide) (by decide) (by decide)

/-- C10: `Recover` assigns a recovered error to `*errp` unchanged, wraps any
other non-nil recovered value as an error rendered with `%v`, and leaves
`*errp` unchanged when no panic occurred. -/
theorem C10_recover_converts_panic (errp : Option GoError) (e : GoError)
    (v : List Char) :
    Recover (some (.isError e)) errp = some e
    ∧ Recover (some (.nonError v)) errp = some (errorfV v)
    ∧ Recover none errp = errp :=
  ⟨rfl, rfl, rfl⟩

end Inco
